import Mathlib

set_option maxHeartbeats 1000000

/-!
Verification development for the MegaDetector frame-to-video detection
aggregation design (spec sections 3, 4.1, 6, 7) and for the surrounding
notebook bookkeeping (frame-folder grouping, missing-video audit, and the
caller-side consistency check in manage_video_batch.ipynb).

Floating-point scores and coordinates are modelled as rationals; the
properties in question are order-theoretic, not rounding-dependent.
-/

/-- Modelled from the spec: a model-produced (category, confidence,
bounding box) triple for one frame (spec section 3, Detection). The
bounding box is (x, y, width, height) in normalized coordinates. -/
structure Detection where
  category : String
  confidence : ℚ
  bbox : ℚ × ℚ × ℚ × ℚ
deriving DecidableEq, Repr

/-- Modelled from the spec: a per-frame detection record
(section 3, FrameDetectionRecord) with an already-resolved video_id. -/
structure FrameDetectionRecord where
  frame_path : String
  video_id : String
  frame_index : Nat
  detections : List Detection
deriving DecidableEq, Repr

/-- Modelled from the spec: the merge strategies of section 4.1. -/
inductive MergeStrategy where
  | max_confidence_per_category : MergeStrategy
  | top_k_per_category : Nat → MergeStrategy
  | all : MergeStrategy
deriving DecidableEq, Repr

/-- Modelled from the spec: the aggregation policy of section 4.1. -/
structure AggregationPolicy where
  confidence_threshold : ℚ
  merge_strategy : MergeStrategy
  min_frames_required : Nat
deriving DecidableEq, Repr

/-- Modelled from the spec: one summary per video (section 3,
VideoDetectionSummary), with the low_sample flag of section 4.1. -/
structure VideoDetectionSummary where
  video_id : String
  detections : List Detection
  frame_count : Nat
  max_confidence_frame : Option String
  low_sample : Bool
deriving DecidableEq, Repr

/-- Worker for first-occurrence deduplication: skips elements already in
the seen accumulator. -/
def firstUniqAux {α : Type} [DecidableEq α] (seen : List α) :
    List α → List α
  | [] => []
  | x :: xs =>
    if x ∈ seen then firstUniqAux seen xs
    else x :: firstUniqAux (x :: seen) xs

/-- First-occurrence deduplication: keeps the first occurrence of each
element, in order of first appearance. -/
def firstUniq {α : Type} [DecidableEq α] (l : List α) : List α :=
  firstUniqAux [] l

theorem mem_firstUniqAux {α : Type} [DecidableEq α] (l : List α) :
    ∀ (seen : List α) (x : α),
      x ∈ firstUniqAux seen l ↔ x ∈ l ∧ x ∉ seen := by
  induction l with
  | nil => intro seen x; simp [firstUniqAux]
  | cons a xs ih =>
    intro seen x
    by_cases ha : a ∈ seen
    · rw [firstUniqAux, if_pos ha, ih]
      simp only [List.mem_cons]
      constructor
      · rintro ⟨hmem, hns⟩
        exact ⟨Or.inr hmem, hns⟩
      · rintro ⟨ha2 | hmem, hns⟩
        · exact absurd (ha2 ▸ ha) hns
        · exact ⟨hmem, hns⟩
    · rw [firstUniqAux, if_neg ha]
      simp only [List.mem_cons, ih, List.mem_cons]
      constructor
      · rintro (rfl | ⟨hmem, hne⟩)
        · exact ⟨Or.inl rfl, ha⟩
        · exact ⟨Or.inr hmem, fun hs => hne (Or.inr hs)⟩
      · rintro ⟨rfl | hmem, hns⟩
        · exact Or.inl rfl
        · by_cases hxa : x = a
          · exact Or.inl hxa
          · exact Or.inr ⟨hmem, fun hc => hc.elim hxa hns⟩

theorem nodup_firstUniqAux {α : Type} [DecidableEq α] (l : List α) :
    ∀ (seen : List α), (firstUniqAux seen l).Nodup := by
  induction l with
  | nil => intro seen; simp [firstUniqAux]
  | cons a xs ih =>
    intro seen
    by_cases ha : a ∈ seen
    · rw [firstUniqAux, if_pos ha]
      exact ih seen
    · rw [firstUniqAux, if_neg ha]
      refine List.nodup_cons.mpr ⟨?_, ih (a :: seen)⟩
      intro hmem
      rw [mem_firstUniqAux] at hmem
      exact hmem.2 (List.mem_cons_self a seen)

theorem mem_firstUniq {α : Type} [DecidableEq α] (l : List α) (x : α) :
    x ∈ firstUniq l ↔ x ∈ l := by
  rw [firstUniq, mem_firstUniqAux]
  simp

theorem nodup_firstUniq {α : Type} [DecidableEq α] (l : List α) :
    (firstUniq l).Nodup :=
  nodup_firstUniqAux l []

theorem firstUniqAux_congr {α : Type} [DecidableEq α] (l : List α) :
    ∀ (s1 s2 : List α), (∀ z, z ∈ s1 ↔ z ∈ s2) →
      firstUniqAux s1 l = firstUniqAux s2 l := by
  induction l with
  | nil => intro s1 s2 _; rfl
  | cons a xs ih =>
    intro s1 s2 hs
    by_cases ha : a ∈ s1
    · rw [firstUniqAux, if_pos ha, firstUniqAux, if_pos ((hs a).mp ha)]
      exact ih s1 s2 hs
    · rw [firstUniqAux, if_neg ha, firstUniqAux,
        if_neg (fun hc => ha ((hs a).mpr hc))]
      congr 1
      apply ih
      intro z
      simp [hs z]

theorem firstUniqAux_filter {α : Type} [DecidableEq α] (y : α)
    (l : List α) :
    ∀ (seen : List α),
      firstUniqAux (y :: seen) l =
        firstUniqAux seen (l.filter (fun z => decide (z ≠ y))) := by
  induction l with
  | nil => intro seen; simp [firstUniqAux]
  | cons x xs ih =>
    intro seen
    by_cases hxy : x = y
    · subst hxy
      rw [firstUniqAux, if_pos (List.mem_cons_self x seen)]
      rw [List.filter_cons, if_neg (by simp)]
      exact ih seen
    · rw [List.filter_cons, if_pos (by simp [hxy])]
      by_cases hs : x ∈ seen
      · rw [firstUniqAux, if_pos (List.mem_cons_of_mem y hs),
          firstUniqAux, if_pos hs]
        exact ih seen
      · rw [firstUniqAux, if_neg (by simp [hxy, hs]),
          firstUniqAux, if_neg hs]
        congr 1
        have hswap : ∀ z, z ∈ x :: y :: seen ↔ z ∈ y :: x :: seen := by
          intro z
          constructor
          · intro h
            rcases List.mem_cons.mp h with rfl | h2
            · exact List.mem_cons_of_mem y (List.mem_cons_self z seen)
            · rcases List.mem_cons.mp h2 with rfl | h3
              · exact List.mem_cons_self z (x :: seen)
              · exact List.mem_cons_of_mem y (List.mem_cons_of_mem x h3)
          · intro h
            rcases List.mem_cons.mp h with rfl | h2
            · exact List.mem_cons_of_mem x (List.mem_cons_self z seen)
            · rcases List.mem_cons.mp h2 with rfl | h3
              · exact List.mem_cons_self z (y :: seen)
              · exact List.mem_cons_of_mem x (List.mem_cons_of_mem y h3)
        rw [firstUniqAux_congr xs (x :: y :: seen) (y :: x :: seen) hswap]
        exact ih (x :: seen)

theorem firstUniq_cons {α : Type} [DecidableEq α] (x : α) (xs : List α) :
    firstUniq (x :: xs) =
      x :: firstUniq (xs.filter (fun y => decide (y ≠ x))) := by
  rw [firstUniq, firstUniqAux, if_neg (List.not_mem_nil x)]
  rw [firstUniqAux_filter]
  rfl

/-- Stable insertion of a value into an association-list of groups:
appends to the existing bucket of the key, else appends a new bucket at
the end (insertion order of keys preserved). -/
def addGroup {α β : Type} [DecidableEq α]
    (g : List (α × List β)) (k : α) (v : β) : List (α × List β) :=
  match g with
  | [] => [(k, [v])]
  | (k2, vs) :: rest =>
      if k2 = k then (k2, vs ++ [v]) :: rest else (k2, vs) :: addGroup rest k v

/-- Stable grouping of a list by a key function, preserving first-occurrence
order of keys and input order inside each bucket. -/
def groupByKey {α β : Type} [DecidableEq α] (key : β → α) (l : List β) :
    List (α × List β) :=
  l.foldl (fun g x => addGroup g (key x) x) []

/-- Association-list lookup over groups. -/
def lookupG {α β : Type} [DecidableEq α] (k : α) :
    List (α × List β) → Option (List β)
  | [] => none
  | (k2, vs) :: rest => if k2 = k then some vs else lookupG k rest

/-- Appends a tail to an optional bucket, creating the bucket when the tail
is non-empty. -/
def combineG {β : Type} (o : Option (List β)) (tail : List β) :
    Option (List β) :=
  match o with
  | some vs => some (vs ++ tail)
  | none => match tail with
    | [] => none
    | t => some t

theorem lookupG_addGroup_same {α β : Type} [DecidableEq α]
    (g : List (α × List β)) (k : α) (v : β) :
    lookupG k (addGroup g k v) = some ((lookupG k g).getD [] ++ [v]) := by
  induction g with
  | nil => simp [addGroup, lookupG]
  | cons p rest ih =>
    obtain ⟨k2, vs⟩ := p
    by_cases h : k2 = k
    · subst h
      simp [addGroup, lookupG]
    · simp [addGroup, lookupG, h, ih]

theorem lookupG_addGroup_ne {α β : Type} [DecidableEq α]
    (g : List (α × List β)) (k k2 : α) (v : β) (h : k2 ≠ k) :
    lookupG k (addGroup g k2 v) = lookupG k g := by
  induction g with
  | nil => simp [addGroup, lookupG, h]
  | cons p rest ih =>
    obtain ⟨k3, vs⟩ := p
    by_cases h3 : k3 = k2
    · subst h3
      simp [addGroup, lookupG, h]
    · by_cases h4 : k3 = k
      · subst h4
        simp [addGroup, lookupG, h3]
      · simp [addGroup, lookupG, h3, h4, ih]

theorem lookupG_foldl {α β : Type} [DecidableEq α] (key : β → α)
    (l : List β) :
    ∀ (g : List (α × List β)) (k : α),
      lookupG k (l.foldl (fun g x => addGroup g (key x) x) g) =
        combineG (lookupG k g) (l.filter (fun x => decide (key x = k))) := by
  induction l with
  | nil =>
    intro g k
    simp only [List.foldl_nil, List.filter_nil]
    cases h : lookupG k g <;> simp [combineG]
  | cons x xs ih =>
    intro g k
    simp only [List.foldl_cons]
    rw [ih]
    by_cases hk : key x = k
    · subst hk
      rw [lookupG_addGroup_same]
      simp only [List.filter_cons]
      rw [if_pos (by simp)]
      cases h : lookupG (key x) g <;> simp [combineG]
    · rw [lookupG_addGroup_ne _ _ _ _ hk]
      simp only [List.filter_cons]
      rw [if_neg (by simp [hk])]

/-- Whether a key has a bucket in the groups. -/
def containsKeyG {α β : Type} [DecidableEq α] (g : List (α × List β))
    (k : α) : Bool :=
  (lookupG k g).isSome

theorem keys_addGroup {α β : Type} [DecidableEq α]
    (g : List (α × List β)) (k : α) (v : β) :
    (addGroup g k v).map Prod.fst =
      if containsKeyG g k then g.map Prod.fst else g.map Prod.fst ++ [k] := by
  induction g with
  | nil => simp [addGroup, containsKeyG, lookupG]
  | cons p rest ih =>
    obtain ⟨k2, vs⟩ := p
    by_cases h : k2 = k
    · subst h
      simp [addGroup, containsKeyG, lookupG]
    · simp only [containsKeyG] at ih
      simp only [addGroup, if_neg h, List.map_cons, containsKeyG, lookupG,
        if_neg h]
      rw [ih]
      by_cases hc : (lookupG k rest).isSome = true
      · rw [if_pos hc, if_pos hc]
      · rw [if_neg hc, if_neg hc, List.cons_append]

theorem containsKeyG_addGroup {α β : Type} [DecidableEq α]
    (g : List (α × List β)) (k k2 : α) (v : β) :
    containsKeyG (addGroup g k2 v) k = (containsKeyG g k || decide (k = k2)) := by
  by_cases h : k2 = k
  · subst h
    simp [containsKeyG, lookupG_addGroup_same]
  · rw [containsKeyG, lookupG_addGroup_ne _ _ _ _ h, ← containsKeyG]
    simp [Ne.symm h]

theorem keys_foldl {α β : Type} [DecidableEq α] (key : β → α)
    (l : List β) :
    ∀ (g : List (α × List β)),
      (l.foldl (fun g x => addGroup g (key x) x) g).map Prod.fst =
        g.map Prod.fst ++
          firstUniq ((l.map key).filter (fun k => !containsKeyG g k)) := by
  induction l with
  | nil =>
    intro g
    simp [firstUniq, firstUniqAux]
  | cons x xs ih =>
    intro g
    simp only [List.foldl_cons, List.map_cons, List.filter_cons]
    rw [ih]
    by_cases hc : containsKeyG g (key x) = true
    · rw [keys_addGroup, if_pos hc]
      rw [if_neg (by simp [hc])]
      have hfe : (List.map key xs).filter
            (fun k => !containsKeyG (addGroup g (key x) x) k) =
          (List.map key xs).filter (fun k => !containsKeyG g k) := by
        apply List.filter_congr
        intro k hk
        rw [containsKeyG_addGroup]
        by_cases he : k = key x
        · subst he
          simp [hc]
        · simp [he]
      rw [hfe]
    · rw [keys_addGroup, if_neg hc]
      rw [if_pos (by simp [hc])]
      have hfe : (List.map key xs).filter
            (fun k => !containsKeyG (addGroup g (key x) x) k) =
          ((List.map key xs).filter (fun k => !containsKeyG g k)).filter
            (fun y => decide (y ≠ key x)) := by
        rw [List.filter_filter]
        apply List.filter_congr
        intro k hk
        rw [containsKeyG_addGroup]
        by_cases he : k = key x
        · subst he
          simp
        · simp [he, Ne.symm he]
      rw [hfe, firstUniq_cons]
      simp [List.append_assoc]

theorem keys_groupByKey {α β : Type} [DecidableEq α] (key : β → α)
    (l : List β) :
    (groupByKey key l).map Prod.fst = firstUniq (l.map key) := by
  rw [groupByKey, keys_foldl]
  simp only [List.nil_append, List.map_nil]
  congr 1
  rw [List.filter_eq_self]
  intro a _
  simp [containsKeyG, lookupG]

theorem lookupG_groupByKey {α β : Type} [DecidableEq α] (key : β → α)
    (l : List β) (k : α) :
    lookupG k (groupByKey key l) =
      combineG none (l.filter (fun x => decide (key x = k))) := by
  rw [groupByKey, lookupG_foldl]
  rfl

/-- Modelled from the spec: bounding-box validity (section 3 invariant and
section 7 DetectionValidationWarning): each coordinate in [0,1] and
x + width <= 1, y + height <= 1. -/
def validBBox (b : ℚ × ℚ × ℚ × ℚ) : Bool :=
  decide (0 ≤ b.1) && decide (b.1 ≤ 1) &&
  decide (0 ≤ b.2.1) && decide (b.2.1 ≤ 1) &&
  decide (0 ≤ b.2.2.1) && decide (b.2.2.1 ≤ 1) &&
  decide (0 ≤ b.2.2.2) && decide (b.2.2.2 ≤ 1) &&
  decide (b.1 + b.2.2.1 ≤ 1) && decide (b.2.1 + b.2.2.2 ≤ 1)

/-- Modelled from the spec: a detection is valid when its bounding box is
well-formed and its confidence lies in [0,1] (section 7,
DetectionValidationWarning covers bounding box or confidence out of
valid range). -/
def validDetection (d : Detection) : Bool :=
  validBBox d.bbox && decide (0 ≤ d.confidence) && decide (d.confidence ≤ 1)

/-- Modelled from the spec: a detection tagged with the frame it came
from, used inside a video group for merging and traceability. -/
structure TaggedDetection where
  det : Detection
  frame_index : Nat
  frame_path : String
deriving DecidableEq, Repr

/-- Modelled from the spec: the strict better-than order on tagged
detections: higher confidence wins, ties go to the lower frame_index
(section 4.1 tie-break rule). -/
def betterDet (a b : TaggedDetection) : Bool :=
  decide (b.det.confidence < a.det.confidence) ||
    (decide (a.det.confidence = b.det.confidence) &&
      decide (a.frame_index < b.frame_index))

/-- Keeps the earlier detection d unless the candidate is strictly
better. -/
def chooseBetter (d : TaggedDetection) (o : Option TaggedDetection) :
    TaggedDetection :=
  match o with
  | none => d
  | some b => if betterDet b d then b else d

/-- Modelled from the spec: the single best detection of a pool (highest
confidence, ties to the lower frame_index, remaining ties to the earlier
list position); none for an empty pool. -/
def bestDet : List TaggedDetection → Option TaggedDetection
  | [] => none
  | d :: ds => some (chooseBetter d (bestDet ds))

/-- Modelled from the spec: ranking used by top_k_per_category — descending
confidence, ties by ascending frame_index. -/
def ranksBefore (a b : TaggedDetection) : Bool :=
  decide (b.det.confidence < a.det.confidence) ||
    (decide (a.det.confidence = b.det.confidence) &&
      decide (a.frame_index ≤ b.frame_index))

/-- Insertion step of the stable sort by ranksBefore. -/
def insertRanked (d : TaggedDetection) :
    List TaggedDetection → List TaggedDetection
  | [] => [d]
  | x :: xs => if ranksBefore d x then d :: x :: xs else x :: insertRanked d xs

/-- Stable insertion sort by ranksBefore (descending confidence). -/
def sortRanked (l : List TaggedDetection) : List TaggedDetection :=
  l.foldr insertRanked []

/-- Modelled from the spec: the merge strategies of section 4.1 applied to
one video group pool of threshold-surviving tagged detections. Categories
are visited in first-occurrence order. -/
def mergeDetections (st : MergeStrategy) (pool : List TaggedDetection) :
    List TaggedDetection :=
  match st with
  | .max_confidence_per_category =>
      (firstUniq (pool.map (fun d => d.det.category))).filterMap
        (fun c => bestDet (pool.filter (fun d => decide (d.det.category = c))))
  | .top_k_per_category k =>
      (firstUniq (pool.map (fun d => d.det.category))).flatMap
        (fun c =>
          (sortRanked (pool.filter (fun d => decide (d.det.category = c)))).take k)
  | .all => pool

/-- Modelled from the spec: the retained pool of one record — detections
that pass validation and the confidence threshold, tagged with the frame
(section 4.1: threshold filter before merging; section 7: invalid
detections dropped). -/
def recordPool (threshold : ℚ) (r : FrameDetectionRecord) :
    List TaggedDetection :=
  (r.detections.filter
      (fun d => validDetection d && decide (threshold ≤ d.confidence))).map
    (fun d => ⟨d, r.frame_index, r.frame_path⟩)

/-- Modelled from the spec: the pool of one video group. -/
def taggedPool (threshold : ℚ) (records : List FrameDetectionRecord) :
    List TaggedDetection :=
  records.flatMap (recordPool threshold)

/-- Modelled from the spec: one VideoDetectionSummary for one video group
(section 4.1): merge detections per policy, count contributing frames,
record the frame of the overall highest-confidence detection, and flag
low samples. -/
def summarize (policy : AggregationPolicy) (vid : String)
    (records : List FrameDetectionRecord) : VideoDetectionSummary :=
  let pool := taggedPool policy.confidence_threshold records
  { video_id := vid
    detections := (mergeDetections policy.merge_strategy pool).map
      (fun t => t.det)
    frame_count := records.length
    max_confidence_frame := (bestDet pool).map (fun t => t.frame_path)
    low_sample := decide (records.length < policy.min_frames_required) }

/-- Modelled from the spec: the number of detections dropped as
DetectionValidationWarning events across the input. -/
def detectionWarningCount (records : List FrameDetectionRecord) : Nat :=
  (records.map
      (fun r => (r.detections.filter (fun d => !validDetection d)).length)).sum

/-- Modelled from the spec: the main aggregation output — one summary per
distinct video in first-occurrence order, with the diagnostics count of
dropped detections (sections 4.1 and 7). -/
structure AggregateResult where
  summaries : List VideoDetectionSummary
  detection_warnings : Nat
deriving DecidableEq, Repr

/-- Modelled from the spec: aggregate(frame_records, policy)
(section 4.1): stable grouping by video_id, then per-group summarization,
alongside the diagnostics summary. -/
def aggregate (records : List FrameDetectionRecord)
    (policy : AggregationPolicy) : AggregateResult :=
  { summaries := (groupByKey (fun r => r.video_id) records).map
      (fun g => summarize policy g.1 g.2)
    detection_warnings := detectionWarningCount records }

/-- Modelled from the spec: a JSON-like value, the shape of the input
artifact of section 6. -/
inductive JVal where
  | jstr : String → JVal
  | jnum : ℚ → JVal
  | jarr : List JVal → JVal
  | jobj : List (String × JVal) → JVal
deriving Repr

/-- First value bound to a field name in a JSON object. -/
def getField : List (String × JVal) → String → Option JVal
  | [], _ => none
  | (k, v) :: rest, name => if k = name then some v else getField rest name

/-- Modelled from the spec: structural decoding of one detection entry of
the input artifact (category, conf, bbox with four numbers); any shape
mismatch is a structural failure (section 7, StructuralError). Range
validation is not done here — it is a per-detection warning instead. -/
def decodeDetection : JVal → Option Detection
  | .jobj fields =>
    match getField fields "category", getField fields "conf",
        getField fields "bbox" with
    | some (.jstr c), some (.jnum q),
        some (.jarr [.jnum x, .jnum y, .jnum w, .jnum h]) =>
      some ⟨c, q, (x, y, w, h)⟩
    | _, _, _ => none
  | _ => none

/-- Modelled from the spec: a structurally decoded frame entry, before
video-identity resolution. -/
structure RawFrame where
  file : String
  dets : List Detection
deriving Repr

/-- Modelled from the spec: structural decoding of one frame entry of the
input artifact. -/
def decodeFrame (j : JVal) : Option RawFrame :=
  match j with
  | .jobj fields =>
    match getField fields "file", getField fields "detections" with
    | some (.jstr f), some (.jarr dets) =>
      match dets.mapM decodeDetection with
      | some ds => some ⟨f, ds⟩
      | none => none
    | _, _ => none
  | _ => none

/-- Modelled from the spec: structural decoding of the whole input
artifact; fails fast with a StructuralError description when the input
does not match the expected record shape (sections 6 and 7). -/
def decodeInput (j : JVal) : Except String (List RawFrame) :=
  match j with
  | .jobj fields =>
    match getField fields "images" with
    | some (.jarr imgs) =>
      match imgs.mapM decodeFrame with
      | some frames => .ok frames
      | none => .error "StructuralError: malformed frame record"
    | _ => .error "StructuralError: missing images array"
  | _ => .error "StructuralError: input is not an object"

/-- Modelled from the spec: resolution of frame paths to video identity
(section 4.1): a record whose path the resolver cannot resolve is dropped
and counted as a ResolutionWarning. Returns the resolved records and the
number of dropped records. -/
def resolveRecords (resolver : String → Option (String × Nat)) :
    List RawFrame → List FrameDetectionRecord × Nat
  | [] => ([], 0)
  | rf :: rest =>
    let (rs, w) := resolveRecords resolver rest
    match resolver rf.file with
    | some (vid, idx) => (⟨rf.file, vid, idx, rf.dets⟩ :: rs, w)
    | none => (rs, w + 1)

/-- Modelled from the spec: the full pipeline output — summaries plus the
diagnostics summary of section 7. -/
structure PipelineOutput where
  summaries : List VideoDetectionSummary
  resolution_warnings : Nat
  detection_warnings : Nat
deriving DecidableEq, Repr

/-- Modelled from the spec: load, resolve and aggregate: structural
problems abort before any output; per-record and per-detection problems
are recovered locally and counted (section 7 propagation policy). -/
def loadAndAggregate (resolver : String → Option (String × Nat))
    (input : JVal) (policy : AggregationPolicy) :
    Except String PipelineOutput :=
  match decodeInput input with
  | .error e => .error e
  | .ok raws =>
    let (records, rw) := resolveRecords resolver raws
    let res := aggregate records policy
    .ok ⟨res.summaries, rw, res.detection_warnings⟩

/-- Modelled from the spec: the caller-side consistency check of
manage_video_batch.ipynb (cell: Confirm that the videos in the .json file
are what we expect them to be): every file value among the aggregated
video results must be a member of the enumerated video filename set. -/
def consistencyCheckPasses (video_results : List VideoDetectionSummary)
    (video_filenames : List String) : Bool :=
  (video_results.map (fun s => s.video_id)).all
    (fun fn => video_filenames.contains fn)

/-- Backslash-to-forward-slash normalization applied to every enumerated
frame path in manage_video_batch.ipynb before grouping. -/
def normalizeSlashes (s : String) : String :=
  String.mk (s.data.map (fun c => if c = '\\' then '/' else c))

/-- Splits a character list on a separator character; always returns at
least one (possibly empty) piece. -/
def splitChar (sep : Char) : List Char → List (List Char)
  | [] => [[]]
  | c :: cs =>
    match splitChar sep cs with
    | [] => [[]]
    | r :: rs => if c = sep then [] :: r :: rs else (c :: r) :: rs

/-- Slash-separated pieces of a path string. -/
def splitSlash (s : String) : List String :=
  (splitChar '/' s.data).map String.mk

/-- Joins path pieces with slashes. -/
def joinSlash : List String → String
  | [] => ""
  | [x] => x
  | x :: xs => x ++ "/" ++ joinSlash xs

/-- Path components of a slash-separated path, ignoring empty components
and current-directory components. -/
def pathComponents (s : String) : List String :=
  (splitSlash s).filter (fun c => decide (c ≠ "") && decide (c ≠ "."))

/-- Everything before the last slash, as os.path.dirname does for
slash-separated paths. -/
def dirname (s : String) : String :=
  joinSlash (splitSlash s).dropLast

/-- Drops the longest common leading run of two component lists and
returns both leftovers. -/
def stripCommon : List String → List String → List String × List String
  | x :: xs, y :: ys =>
    if x = y then stripCommon xs ys else (x :: xs, y :: ys)
  | xs, ys => (xs, ys)

/-- Relative path from base to path, as os.path.relpath computes it for
already-normalized inputs: drop the common component run, then one parent
step per leftover base component. -/
def relpath (path base : String) : String :=
  let (p, b) := stripCommon (pathComponents path) (pathComponents base)
  let comps := List.replicate b.length ".." ++ p
  if comps.isEmpty then "." else joinSlash comps

/-- The key a frame file is grouped under in manage_video_batch.ipynb:
the parent directory of the (normalized) frame path, taken relative to
the frames root. -/
def frameFolderKey (output_folder_base fn : String) : String :=
  relpath (dirname fn) output_folder_base

/-- The folder_to_frame_files loop of manage_video_batch.ipynb: normalize
slashes, then append each frame file to the bucket of its parent folder
relative to the frames root (defaultdict(list) with insertion order). -/
def folder_to_frame_files (output_folder_base : String)
    (frame_files_raw : List String) : List (String × List String) :=
  (frame_files_raw.map normalizeSlashes).foldl
    (fun g fn => addGroup g (frameFolderKey output_folder_base fn) fn) []

/-- The missing_videos loop of manage_video_batch.ipynb: a video relative
filename is appended when it is not a key of folder_to_frame_files. -/
def missing_videos (video_filenames : List String)
    (groups : List (String × List String)) : List String :=
  video_filenames.foldl
    (fun acc fn => if containsKeyG groups fn then acc else acc ++ [fn]) []

theorem aggregate_video_ids (records : List FrameDetectionRecord)
    (policy : AggregationPolicy) :
    (aggregate records policy).summaries.map (fun s => s.video_id) =
      firstUniq (records.map (fun r => r.video_id)) := by
  show ((groupByKey (fun r => r.video_id) records).map
      (fun g => summarize policy g.1 g.2)).map (fun s => s.video_id) = _
  rw [List.map_map]
  have hcomp : ((fun s : VideoDetectionSummary => s.video_id) ∘
      fun g : String × List FrameDetectionRecord =>
        summarize policy g.1 g.2) = Prod.fst := rfl
  rw [hcomp, keys_groupByKey]

theorem bestDet_eq_none {l : List TaggedDetection} :
    bestDet l = none ↔ l = [] := by
  cases l <;> simp [bestDet]

theorem bestDet_mem {l : List TaggedDetection} {b : TaggedDetection}
    (h : bestDet l = some b) : b ∈ l := by
  induction l generalizing b with
  | nil => simp [bestDet] at h
  | cons d ds ih =>
    rw [bestDet, Option.some.injEq] at h
    cases hb : bestDet ds with
    | none =>
      rw [hb] at h
      simp only [chooseBetter] at h
      simp [← h]
    | some b2 =>
      rw [hb] at h
      simp only [chooseBetter] at h
      by_cases hbd : betterDet b2 d = true
      · rw [if_pos hbd] at h
        exact List.mem_cons_of_mem d (h ▸ ih hb)
      · rw [if_neg hbd] at h
        simp [← h]

theorem bestDet_isSome {l : List TaggedDetection} (h : l ≠ []) :
    (bestDet l).isSome = true := by
  cases l with
  | nil => exact absurd rfl h
  | cons d ds => rw [bestDet]; rfl

theorem bestDet_le {l : List TaggedDetection} {b : TaggedDetection}
    (h : bestDet l = some b) :
    ∀ d ∈ l, d.det.confidence ≤ b.det.confidence ∧
      (d.det.confidence = b.det.confidence → b.frame_index ≤ d.frame_index) := by
  induction l generalizing b with
  | nil => simp [bestDet] at h
  | cons x ds ih =>
    rw [bestDet, Option.some.injEq] at h
    cases hb : bestDet ds with
    | none =>
      rw [hb] at h
      simp only [chooseBetter] at h
      subst h
      intro d hd
      rcases List.mem_cons.mp hd with rfl | hmem
      · exact ⟨le_refl _, fun _ => le_refl _⟩
      · rw [bestDet_eq_none.mp hb] at hmem
        simp at hmem
    | some b2 =>
      rw [hb] at h
      simp only [chooseBetter] at h
      by_cases hbd : betterDet b2 x = true
      · rw [if_pos hbd] at h
        subst h
        intro d hd
        rw [betterDet, Bool.or_eq_true, Bool.and_eq_true] at hbd
        simp only [decide_eq_true_iff] at hbd
        rcases List.mem_cons.mp hd with rfl | hmem
        · rcases hbd with hlt | ⟨heq, hfi⟩
          · exact ⟨le_of_lt hlt, fun he => absurd (he ▸ hlt) (lt_irrefl _)⟩
          · exact ⟨le_of_eq heq.symm, fun _ => le_of_lt hfi⟩
        · exact ih hb d hmem
      · rw [if_neg hbd] at h
        subst h
        intro d hd
        rw [betterDet, Bool.or_eq_true, Bool.and_eq_true] at hbd
        simp only [decide_eq_true_iff, not_or, not_and] at hbd
        obtain ⟨hnlt, hneq⟩ := hbd
        have hble : b2.det.confidence ≤ x.det.confidence := not_lt.mp hnlt
        rcases List.mem_cons.mp hd with rfl | hmem
        · exact ⟨le_refl _, fun _ => le_refl _⟩
        · obtain ⟨hdle, hdtie⟩ := ih hb d hmem
          refine ⟨le_trans hdle hble, fun he => ?_⟩
          have heq2 : b2.det.confidence = x.det.confidence :=
            le_antisymm hble (he ▸ hdle)
          have hxb2 : ¬ b2.frame_index < x.frame_index := by
            intro hlt
            exact absurd hlt (by
              have := hneq heq2
              simpa using this)
          have hxle : x.frame_index ≤ b2.frame_index := not_lt.mp hxb2
          exact le_trans hxle (hdtie (he.trans heq2.symm))

theorem filterMap_all_some_map_cat {L : List String}
    {f : String → Option TaggedDetection}
    (h : ∀ c ∈ L, ∃ b, f c = some b ∧ b.det.category = c) :
    (L.filterMap f).map (fun t => t.det.category) = L := by
  induction L with
  | nil => rfl
  | cons c cs ih =>
    obtain ⟨b, hb, hcat⟩ := h c (List.mem_cons_self c cs)
    rw [List.filterMap_cons, hb]
    simp only [List.map_cons, hcat]
    congr 1
    exact ih (fun x hx => h x (List.mem_cons_of_mem c hx))

theorem mergeMax_categories (pool : List TaggedDetection) :
    (mergeDetections .max_confidence_per_category pool).map
        (fun t => t.det.category) =
      firstUniq (pool.map (fun t => t.det.category)) := by
  rw [mergeDetections]
  apply filterMap_all_some_map_cat
  intro c hc
  rw [mem_firstUniq, List.mem_map] at hc
  obtain ⟨t, ht, hcat⟩ := hc
  have hmem : t ∈ pool.filter (fun d => decide (d.det.category = c)) :=
    List.mem_filter.mpr ⟨ht, by simp [hcat]⟩
  have hne : pool.filter (fun d => decide (d.det.category = c)) ≠ [] :=
    List.ne_nil_of_mem hmem
  cases hb : bestDet (pool.filter (fun d => decide (d.det.category = c))) with
  | none =>
    have := bestDet_isSome hne
    rw [hb] at this
    simp at this
  | some b =>
    have hbmem := bestDet_mem hb
    have hbcat : b.det.category = c := by
      have := (List.mem_filter.mp hbmem).2
      simpa using this
    exact ⟨b, rfl, hbcat⟩

theorem mergeMax_retained (pool : List TaggedDetection)
    (r : TaggedDetection)
    (hr : r ∈ mergeDetections .max_confidence_per_category pool) :
    r ∈ pool ∧ ∀ d ∈ pool, d.det.category = r.det.category →
      d.det.confidence ≤ r.det.confidence ∧
        (d.det.confidence = r.det.confidence →
          r.frame_index ≤ d.frame_index) := by
  rw [mergeDetections] at hr
  rw [List.mem_filterMap] at hr
  obtain ⟨c, _, hb⟩ := hr
  have hrmem := bestDet_mem hb
  have hrfil := List.mem_filter.mp hrmem
  have hrcat : r.det.category = c := by simpa using hrfil.2
  refine ⟨hrfil.1, fun d hd hdc => ?_⟩
  have hdmem : d ∈ pool.filter (fun x => decide (x.det.category = c)) :=
    List.mem_filter.mpr ⟨hd, by simp [hdc, hrcat]⟩
  exact bestDet_le hb d hdmem

theorem length_insertRanked (d : TaggedDetection)
    (l : List TaggedDetection) :
    (insertRanked d l).length = l.length + 1 := by
  induction l with
  | nil => rfl
  | cons x xs ih =>
    rw [insertRanked]
    by_cases hr : ranksBefore d x = true
    · rw [if_pos hr]
      rfl
    · rw [if_neg hr, List.length_cons, ih]
      rfl

theorem length_sortRanked (l : List TaggedDetection) :
    (sortRanked l).length = l.length := by
  induction l with
  | nil => rfl
  | cons x xs ih =>
    show (insertRanked x (sortRanked xs)).length = xs.length + 1
    rw [length_insertRanked, ih]

theorem lengthFlatMap {γ δ : Type} (L : List γ) (f : γ → List δ) :
    (L.flatMap f).length = (L.map (fun c => (f c).length)).sum := by
  induction L with
  | nil => rfl
  | cons c cs ih =>
    rw [List.flatMap_cons, List.length_append, ih, List.map_cons,
      List.sum_cons]

theorem sum_map_le_pointwise {γ : Type} {L : List γ} {f g : γ → Nat}
    (h : ∀ c ∈ L, f c ≤ g c) : (L.map f).sum ≤ (L.map g).sum := by
  induction L with
  | nil => exact le_refl _
  | cons c cs ih =>
    rw [List.map_cons, List.map_cons, List.sum_cons, List.sum_cons]
    exact Nat.add_le_add (h c (List.mem_cons_self c cs))
      (ih (fun x hx => h x (List.mem_cons_of_mem c hx)))

theorem sum_map_sublist {γ : Type} {l1 l2 : List γ} (h : l1.Sublist l2)
    (f : γ → Nat) : (l1.map f).sum ≤ (l2.map f).sum := by
  induction h with
  | slnil => exact le_refl _
  | cons _ _ ih =>
    rw [List.map_cons, List.sum_cons]
    exact le_trans ih (Nat.le_add_left _ _)
  | cons₂ x _ ih =>
    rw [List.map_cons, List.map_cons, List.sum_cons, List.sum_cons]
    exact Nat.add_le_add_left ih _

theorem sum_map_subperm {γ : Type} {l1 l2 : List γ} (h : l1.Subperm l2)
    (f : γ → Nat) : (l1.map f).sum ≤ (l2.map f).sum := by
  obtain ⟨l, hp, hs⟩ := h
  calc (l1.map f).sum = (l.map f).sum := ((hp.map f).sum_eq).symm
    _ ≤ (l2.map f).sum := sum_map_sublist hs f

theorem firstUniq_subperm {α : Type} [DecidableEq α] {l1 l2 : List α}
    (h : l1.Sublist l2) : (firstUniq l1).Subperm (firstUniq l2) :=
  (nodup_firstUniq l1).subperm
    (fun _ hx => (mem_firstUniq _ _).mpr (h.subset ((mem_firstUniq _ _).mp hx)))

theorem recordPool_sublist {t1 t2 : ℚ} (ht : t1 ≤ t2)
    (r : FrameDetectionRecord) :
    (recordPool t2 r).Sublist (recordPool t1 r) := by
  apply List.Sublist.map
  apply List.monotone_filter_right
  intro d hd
  rw [Bool.and_eq_true] at hd ⊢
  exact ⟨hd.1, by
    rw [decide_eq_true_iff] at hd ⊢
    exact le_trans ht hd.2⟩

theorem taggedPool_sublist {t1 t2 : ℚ} (ht : t1 ≤ t2)
    (records : List FrameDetectionRecord) :
    (taggedPool t2 records).Sublist (taggedPool t1 records) := by
  induction records with
  | nil => exact List.Sublist.refl _
  | cons r rs ih =>
    show (recordPool t2 r ++ rs.flatMap (recordPool t2)).Sublist
      (recordPool t1 r ++ rs.flatMap (recordPool t1))
    exact List.Sublist.append (recordPool_sublist ht r) ih

theorem mergeMax_length (pool : List TaggedDetection) :
    (mergeDetections .max_confidence_per_category pool).length =
      (firstUniq (pool.map (fun t => t.det.category))).length := by
  rw [← mergeMax_categories pool, List.length_map]

theorem mergeDetections_length_mono (st : MergeStrategy)
    {pool1 pool2 : List TaggedDetection} (h : pool2.Sublist pool1) :
    (mergeDetections st pool2).length ≤ (mergeDetections st pool1).length := by
  cases st with
  | all => exact h.length_le
  | max_confidence_per_category =>
    rw [mergeMax_length, mergeMax_length]
    exact (firstUniq_subperm (h.map (fun t => t.det.category))).length_le
  | top_k_per_category k =>
    rw [mergeDetections, mergeDetections, lengthFlatMap, lengthFlatMap]
    calc ((firstUniq (pool2.map (fun t => t.det.category))).map
            (fun c => ((sortRanked (pool2.filter
              (fun d => decide (d.det.category = c)))).take k).length)).sum
        ≤ ((firstUniq (pool2.map (fun t => t.det.category))).map
            (fun c => ((sortRanked (pool1.filter
              (fun d => decide (d.det.category = c)))).take k).length)).sum := by
          apply sum_map_le_pointwise
          intro c _
          rw [List.length_take, List.length_take, length_sortRanked,
            length_sortRanked]
          exact min_le_min (le_refl k) (h.filter _).length_le
      _ ≤ ((firstUniq (pool1.map (fun t => t.det.category))).map
            (fun c => ((sortRanked (pool1.filter
              (fun d => decide (d.det.category = c)))).take k).length)).sum :=
          sum_map_subperm (firstUniq_subperm (h.map (fun t => t.det.category))) _

theorem forall₂_map_same {γ δ : Type} {gs : List γ} {f1 f2 : γ → δ}
    {R : δ → δ → Prop} (h : ∀ g ∈ gs, R (f1 g) (f2 g)) :
    List.Forall₂ R (gs.map f1) (gs.map f2) := by
  induction gs with
  | nil => exact List.Forall₂.nil
  | cons g gs ih =>
    exact List.Forall₂.cons (h g (List.mem_cons_self g gs))
      (ih (fun x hx => h x (List.mem_cons_of_mem g hx)))

theorem foldl_skip_append {γ : Type} (p : γ → Bool) (l : List γ) :
    ∀ acc : List γ,
      l.foldl (fun acc fn => if p fn then acc else acc ++ [fn]) acc =
        acc ++ l.filter (fun fn => !p fn) := by
  induction l with
  | nil => intro acc; simp
  | cons x xs ih =>
    intro acc
    rw [List.foldl_cons, List.filter_cons]
    by_cases hp : p x = true
    · rw [if_pos hp, ih]
      rw [show (!p x) = false by simp [hp]]
      simp
    · rw [if_neg hp, ih]
      rw [show (!p x) = true by simp [Bool.eq_false_iff.mpr hp]]
      simp

/-- Bounding box shared by the scenario detections (0, 0, 1/2, 1/2). -/
def scBox : ℚ × ℚ × ℚ × ℚ := (0, 0, mkRat 1 2, mkRat 1 2)

/-- Scenario detection animal at confidence 0.9. -/
def scDetAnimal09 : Detection := ⟨"animal", mkRat 9 10, scBox⟩

/-- Scenario detection animal at confidence 0.95. -/
def scDetAnimal095 : Detection := ⟨"animal", mkRat 95 100, scBox⟩

/-- Scenario detection person at confidence 0.6. -/
def scDetPerson06 : Detection := ⟨"person", mkRat 6 10, scBox⟩

/-- Scenario frame 0 of video A. -/
def scRecA0 : FrameDetectionRecord :=
  ⟨"A/frame000000.jpg", "A", 0, [scDetAnimal09]⟩

/-- Scenario frame 5 of video A. -/
def scRecA5 : FrameDetectionRecord :=
  ⟨"A/frame000005.jpg", "A", 5, [scDetAnimal095, scDetPerson06]⟩

/-- Scenario frame 2 of video B, no detections. -/
def scRecB2 : FrameDetectionRecord := ⟨"B/frame000002.jpg", "B", 2, []⟩

/-- Scenario policy: threshold 0.5, max_confidence_per_category,
min_frames_required 1. -/
def scPolicy : AggregationPolicy :=
  ⟨mkRat 1 2, .max_confidence_per_category, 1⟩

/-- Tie-break scenario detection: vehicle at confidence 0.8. -/
def scDetVehicle : Detection := ⟨"vehicle", mkRat 8 10, scBox⟩

/-- Tie-break scenario frame 3 of video V. -/
def scRecV3 : FrameDetectionRecord :=
  ⟨"V/frame000003.jpg", "V", 3, [scDetVehicle]⟩

/-- Tie-break scenario frame 7 of video V. -/
def scRecV7 : FrameDetectionRecord :=
  ⟨"V/frame000007.jpg", "V", 7, [scDetVehicle]⟩

/-- Tie-break scenario tagged detection at frame 3. -/
def scTagV3 : TaggedDetection := ⟨scDetVehicle, 3, "V/frame000003.jpg"⟩

/-- Max-merge scenario tagged detection. -/
def scTagA5 : TaggedDetection := ⟨scDetAnimal095, 5, "A/frame000005.jpg"⟩

/-- Malformed bounding box of the validation scenario: x + width = 1.2. -/
def scBadBox : ℚ × ℚ × ℚ × ℚ :=
  (mkRat 1 2, mkRat 1 2, mkRat 7 10, mkRat 2 10)

/-- Detection with the malformed bounding box. -/
def scDetBad : Detection := ⟨"animal", mkRat 9 10, scBadBox⟩

/-- Valid detection sharing the frame with the malformed one. -/
def scDetGood : Detection := ⟨"person", mkRat 8 10, scBox⟩

/-- Frame carrying one malformed-bbox detection and one valid one. -/
def scRecMixed : FrameDetectionRecord :=
  ⟨"V/frame000000.jpg", "V", 0, [scDetBad, scDetGood]⟩

/-- Policy with zero threshold used in the validation scenario. -/
def scPolicyZero : AggregationPolicy :=
  ⟨0, .max_confidence_per_category, 1⟩

/-- Resolver that resolves nothing, for the structural-error witness. -/
def scResolver : String → Option (String × Nat) := fun _ => none

/-- C1: Completeness of aggregation: the emitted summaries carry a
duplicate-free list of video_ids containing exactly the distinct video_id
values of the input frame_records (so each distinct input video_id gets
exactly one VideoDetectionSummary, also when its detections list is
empty), and the empty input yields the empty output sequence, not an
error. -/
theorem aggregate_completeness (records : List FrameDetectionRecord)
    (policy : AggregationPolicy) :
    ((aggregate records policy).summaries.map (fun s => s.video_id)).Nodup ∧
    (∀ v : String,
      v ∈ (aggregate records policy).summaries.map (fun s => s.video_id) ↔
        v ∈ records.map (fun r => r.video_id)) ∧
    (aggregate ([] : List FrameDetectionRecord) policy).summaries = [] := by
  refine ⟨?_, ?_, rfl⟩
  · rw [aggregate_video_ids]
    exact nodup_firstUniq _
  · intro v
    rw [aggregate_video_ids, mem_firstUniq]

/-- C2: Under max_confidence_per_category the merge keeps exactly one
detection per category present in the video pool (the merged categories
are exactly the distinct pool categories), each retained detection is a
pool detection of maximal confidence for its category, and the spec
scenario (video A frames 0 and 5, video B frame 2 empty, threshold 0.5)
produces exactly the expected two summaries. -/
theorem aggregate_max_confidence_per_category :
    (∀ pool : List TaggedDetection,
      (mergeDetections .max_confidence_per_category pool).map
          (fun t => t.det.category) =
        firstUniq (pool.map (fun t => t.det.category))) ∧
    (∀ (pool : List TaggedDetection) (r : TaggedDetection),
      r ∈ mergeDetections .max_confidence_per_category pool →
        r ∈ pool ∧ ∀ d ∈ pool, d.det.category = r.det.category →
          d.det.confidence ≤ r.det.confidence) ∧
    aggregate [scRecA0, scRecA5, scRecB2] scPolicy =
      ⟨[⟨"A", [scDetAnimal095, scDetPerson06], 2,
          some "A/frame000005.jpg", false⟩,
        ⟨"B", [], 1, none, false⟩], 0⟩ := by
  refine ⟨mergeMax_categories, ?_, by with_unfolding_all decide⟩
  intro pool r hr
  obtain ⟨hmem, hbest⟩ := mergeMax_retained pool r hr
  exact ⟨hmem, fun d hd hc => (hbest d hd hc).1⟩

theorem aggregate_max_confidence_per_category_witness :
    scTagA5 ∈ mergeDetections .max_confidence_per_category [scTagA5] ∧
    (scTagA5 ∈ [scTagA5] ∧ ∀ d ∈ [scTagA5],
      d.det.category = scTagA5.det.category →
        d.det.confidence ≤ scTagA5.det.confidence) :=
  ⟨by with_unfolding_all decide,
    aggregate_max_confidence_per_category.2.1 [scTagA5] scTagA5
      (by with_unfolding_all decide)⟩

/-- C3: Determinism and idempotence: aggregate is a pure function of its
two arguments, so two calls on identical inputs produce identical
output; there is no hidden state in the model. -/
theorem aggregate_deterministic (r1 r2 : List FrameDetectionRecord)
    (p1 p2 : AggregationPolicy) (hr : r1 = r2) (hp : p1 = p2) :
    aggregate r1 p1 = aggregate r2 p2 := by
  rw [hr, hp]

theorem aggregate_deterministic_witness :
    aggregate [scRecA0] scPolicy = aggregate [scRecA0] scPolicy :=
  aggregate_deterministic [scRecA0] [scRecA0] scPolicy scPolicy rfl rfl

/-- C4: Output ordering: the emitted summaries are ordered by the first
occurrence of each video_id in frame_records, for every input
interleaving — the output video_id list is exactly the first-occurrence
deduplication of the input video_id list. -/
theorem aggregate_output_order (records : List FrameDetectionRecord)
    (policy : AggregationPolicy) :
    (aggregate records policy).summaries.map (fun s => s.video_id) =
      firstUniq (records.map (fun r => r.video_id)) :=
  aggregate_video_ids records policy

/-- C5: Tie-breaking: a detection retained by max_confidence_per_category
has frame_index no larger than any same-category pool detection of equal
confidence, and in the spec scenario (vehicle at 0.8 at frames 3 and 7,
either input order) the summary's max_confidence_frame resolves to the
frame with frame_index 3. -/
theorem aggregate_tie_break :
    (∀ (pool : List TaggedDetection) (r : TaggedDetection),
      r ∈ mergeDetections .max_confidence_per_category pool →
        ∀ d ∈ pool, d.det.category = r.det.category →
          d.det.confidence = r.det.confidence →
            r.frame_index ≤ d.frame_index) ∧
    (aggregate [scRecV3, scRecV7] scPolicy).summaries.map
        (fun s => s.max_confidence_frame) = [some "V/frame000003.jpg"] ∧
    (aggregate [scRecV7, scRecV3] scPolicy).summaries.map
        (fun s => s.max_confidence_frame) = [some "V/frame000003.jpg"] := by
  refine ⟨?_, by with_unfolding_all decide, by with_unfolding_all decide⟩
  intro pool r hr d hd hc he
  exact ((mergeMax_retained pool r hr).2 d hd hc).2 he

theorem aggregate_tie_break_witness :
    scTagV3.frame_index ≤ scTagV3.frame_index :=
  aggregate_tie_break.1 [scTagV3] scTagV3 (by with_unfolding_all decide)
    scTagV3 (by with_unfolding_all decide) rfl rfl

/-- C6: Threshold monotonicity: for policies equal except for the
confidence threshold, with t1 at most t2, every summary under t2 retains
at most as many detections as the matching summary under t1 (summaries
are matched pointwise; the video lists coincide). -/
theorem aggregate_threshold_monotone (records : List FrameDetectionRecord)
    (p1 p2 : AggregationPolicy)
    (hst : p1.merge_strategy = p2.merge_strategy)
    (_hmf : p1.min_frames_required = p2.min_frames_required)
    (ht : p1.confidence_threshold ≤ p2.confidence_threshold) :
    List.Forall₂ (fun s1 s2 => s2.detections.length ≤ s1.detections.length)
      (aggregate records p1).summaries (aggregate records p2).summaries := by
  show List.Forall₂ _
    ((groupByKey (fun r => r.video_id) records).map
      (fun g => summarize p1 g.1 g.2))
    ((groupByKey (fun r => r.video_id) records).map
      (fun g => summarize p2 g.1 g.2))
  apply forall₂_map_same
  intro g _
  simp only [summarize]
  rw [List.length_map, List.length_map, ← hst]
  exact mergeDetections_length_mono p1.merge_strategy
    (taggedPool_sublist ht g.2)

theorem aggregate_threshold_monotone_witness :
    List.Forall₂ (fun s1 s2 => s2.detections.length ≤ s1.detections.length)
      (aggregate [scRecA0, scRecA5, scRecB2] scPolicy).summaries
      (aggregate [scRecA0, scRecA5, scRecB2]
        ⟨mkRat 7 10, .max_confidence_per_category, 1⟩).summaries :=
  aggregate_threshold_monotone [scRecA0, scRecA5, scRecB2] scPolicy
    ⟨mkRat 7 10, .max_confidence_per_category, 1⟩ rfl rfl
    (by with_unfolding_all decide)

/-- C7: Error locality versus fatality: a structurally malformed input
makes the pipeline fail fast with the structural error and no output at
all, while a single malformed-bbox detection (x + width = 1.2 > 1) is
dropped and counted as a DetectionValidationWarning with the remaining
valid detection of the same frame still aggregated. -/
theorem aggregate_error_locality :
    (∀ (resolver : String → Option (String × Nat)) (input : JVal)
        (policy : AggregationPolicy) (e : String),
      decodeInput input = Except.error e →
        loadAndAggregate resolver input policy = Except.error e) ∧
    aggregate [scRecMixed] scPolicyZero =
      ⟨[⟨"V", [scDetGood], 1, some "V/frame000000.jpg", false⟩], 1⟩ := by
  refine ⟨?_, by with_unfolding_all decide⟩
  intro resolver input policy e h
  simp [loadAndAggregate, h]

theorem aggregate_error_locality_witness :
    loadAndAggregate scResolver (JVal.jnum 3) scPolicyZero =
      Except.error "StructuralError: input is not an object" :=
  aggregate_error_locality.1 scResolver (JVal.jnum 3) scPolicyZero
    "StructuralError: input is not an object" rfl

/-- C8: No fabricated videos: every video_id emitted by aggregate occurs
among the input frame_records video_ids, and therefore the caller-side
consistency check of manage_video_batch.ipynb (every file value of the
aggregated video results is a member of the enumerated video filename
set) succeeds whenever the input records only mention enumerated
videos. -/
theorem aggregate_no_fabricated_videos :
    (∀ (records : List FrameDetectionRecord) (policy : AggregationPolicy)
        (s : VideoDetectionSummary),
      s ∈ (aggregate records policy).summaries →
        s.video_id ∈ records.map (fun r => r.video_id)) ∧
    (∀ (records : List FrameDetectionRecord) (policy : AggregationPolicy)
        (video_filenames : List String),
      (∀ r ∈ records, r.video_id ∈ video_filenames) →
        consistencyCheckPasses (aggregate records policy).summaries
          video_filenames = true) := by
  constructor
  · intro records policy s hs
    have hmem : s.video_id ∈
        (aggregate records policy).summaries.map (fun s => s.video_id) :=
      List.mem_map.mpr ⟨s, hs, rfl⟩
    rw [aggregate_video_ids, mem_firstUniq] at hmem
    exact hmem
  · intro records policy vfn h
    rw [consistencyCheckPasses, List.all_eq_true]
    intro fn hfn
    rw [aggregate_video_ids, mem_firstUniq, List.mem_map] at hfn
    obtain ⟨r, hr, rfl⟩ := hfn
    exact List.elem_iff.mpr (h r hr)

theorem aggregate_no_fabricated_videos_witness :
    (⟨"A", [scDetAnimal09], 1, some "A/frame000000.jpg", false⟩ :
        VideoDetectionSummary).video_id ∈
      [scRecA0].map (fun r => r.video_id) ∧
    consistencyCheckPasses
      (aggregate [scRecA0, scRecA5, scRecB2] scPolicy).summaries
      ["A", "B"] = true :=
  ⟨aggregate_no_fabricated_videos.1 [scRecA0] scPolicy
      ⟨"A", [scDetAnimal09], 1, some "A/frame000000.jpg", false⟩
      (by with_unfolding_all decide),
    aggregate_no_fabricated_videos.2 [scRecA0, scRecA5, scRecB2] scPolicy
      ["A", "B"] (by with_unfolding_all decide)⟩

/-- C9: Low-sample flagging never suppresses output: every summary
carries low_sample exactly when its frame_count is below
min_frames_required, and two policies equal except for
min_frames_required produce pointwise summaries identical in video_id,
detections, frame_count and max_confidence_frame — only the flag can
differ, never the presence of a summary. -/
theorem aggregate_low_sample_flagging (records : List FrameDetectionRecord)
    (p1 p2 : AggregationPolicy)
    (hth : p1.confidence_threshold = p2.confidence_threshold)
    (hst : p1.merge_strategy = p2.merge_strategy) :
    (∀ s ∈ (aggregate records p1).summaries,
      s.low_sample = decide (s.frame_count < p1.min_frames_required)) ∧
    List.Forall₂ (fun s1 s2 => s1.video_id = s2.video_id ∧
        s1.detections = s2.detections ∧
        s1.frame_count = s2.frame_count ∧
        s1.max_confidence_frame = s2.max_confidence_frame)
      (aggregate records p1).summaries (aggregate records p2).summaries := by
  constructor
  · intro s hs
    have hs2 : s ∈ (groupByKey (fun r => r.video_id) records).map
        (fun g => summarize p1 g.1 g.2) := hs
    obtain ⟨g, _, rfl⟩ := List.mem_map.mp hs2
    simp [summarize]
  · show List.Forall₂ _
      ((groupByKey (fun r => r.video_id) records).map
        (fun g => summarize p1 g.1 g.2))
      ((groupByKey (fun r => r.video_id) records).map
        (fun g => summarize p2 g.1 g.2))
    apply forall₂_map_same
    intro g _
    refine ⟨rfl, ?_, rfl, ?_⟩ <;> simp [summarize, hth, hst]

theorem aggregate_low_sample_flagging_witness :
    (∀ s ∈ (aggregate [scRecA0, scRecA5, scRecB2] scPolicy).summaries,
      s.low_sample = decide (s.frame_count < scPolicy.min_frames_required)) ∧
    List.Forall₂ (fun s1 s2 => s1.video_id = s2.video_id ∧
        s1.detections = s2.detections ∧
        s1.frame_count = s2.frame_count ∧
        s1.max_confidence_frame = s2.max_confidence_frame)
      (aggregate [scRecA0, scRecA5, scRecB2] scPolicy).summaries
      (aggregate [scRecA0, scRecA5, scRecB2]
        ⟨mkRat 1 2, .max_confidence_per_category, 5⟩).summaries :=
  aggregate_low_sample_flagging [scRecA0, scRecA5, scRecB2] scPolicy
    ⟨mkRat 1 2, .max_confidence_per_category, 5⟩ rfl rfl

/-- C10: The caller-side audit of manage_video_batch.ipynb assigns every
normalized frame file to exactly one folder group, keyed by its parent
directory relative to the frames root (keys are duplicate-free, each
bucket is exactly the enumeration-ordered files with that key, and every
file has a bucket), and missing_videos is exactly the
enumeration-ordered list of video relative paths that equal none of the
folder keys. -/
theorem notebook_frame_grouping (base : String) (raw : List String)
    (vids : List String) :
    ((folder_to_frame_files base raw).map Prod.fst).Nodup ∧
    (∀ (k : String) (vs : List String),
      lookupG k (folder_to_frame_files base raw) = some vs →
        vs = (raw.map normalizeSlashes).filter
          (fun fn => decide (frameFolderKey base fn = k))) ∧
    (∀ fn ∈ raw.map normalizeSlashes,
      containsKeyG (folder_to_frame_files base raw)
        (frameFolderKey base fn) = true) ∧
    missing_videos vids (folder_to_frame_files base raw) =
      vids.filter
        (fun fn => !containsKeyG (folder_to_frame_files base raw) fn) := by
  have hgr : folder_to_frame_files base raw =
      groupByKey (frameFolderKey base) (raw.map normalizeSlashes) := rfl
  refine ⟨?_, ?_, ?_, ?_⟩
  · rw [hgr, keys_groupByKey]
    exact nodup_firstUniq _
  · intro k vs h
    rw [hgr, lookupG_groupByKey] at h
    revert h
    cases hft : (raw.map normalizeSlashes).filter
        (fun fn => decide (frameFolderKey base fn = k)) with
    | nil => intro h; simp [combineG] at h
    | cons a t =>
      intro h
      simp only [combineG, Option.some.injEq] at h
      exact h.symm
  · intro fn hfn
    have hmem : fn ∈ (raw.map normalizeSlashes).filter
        (fun x => decide (frameFolderKey base x = frameFolderKey base fn)) :=
      List.mem_filter.mpr ⟨hfn, by simp⟩
    rw [hgr, containsKeyG, lookupG_groupByKey]
    revert hmem
    cases (raw.map normalizeSlashes).filter
        (fun x => decide (frameFolderKey base x = frameFolderKey base fn)) with
    | nil => intro hmem; simp at hmem
    | cons a t => intro _; rfl
  · rw [missing_videos, foldl_skip_append]
    rfl

theorem notebook_frame_grouping_witness :
    "/f/v1.mp4/x0.jpg" ∈ ["/f/v1.mp4/x0.jpg"].map normalizeSlashes ∧
    containsKeyG (folder_to_frame_files "/f" ["/f/v1.mp4/x0.jpg"])
      (frameFolderKey "/f" "/f/v1.mp4/x0.jpg") = true :=
  ⟨by decide,
    (notebook_frame_grouping "/f" ["/f/v1.mp4/x0.jpg"] []).2.2.1
      "/f/v1.mp4/x0.jpg" (by decide)⟩
